import Mathlib

/-!
Verification of the company scoring engine of the mining-analytics dashboard
(`src/lib/scoringUtils.ts`, function `calculateScores`).

The embedding works over ℚ: every JavaScript number that reaches the scoring
arithmetic is a finite IEEE double, and the algorithm uses only field
operations, comparisons, `Math.max`/`Math.min` and `Math.round`, so the
rational semantics is the intended exact semantics of the code.  Values that
may be `null`, `undefined` or non-finite are embedded as `Option ℚ`:
`none` plays the role of "not a valid finite number".
-/

namespace Scoring

/-- Tolerance used by the normalizer for degenerate ranges (`1e-9` in the source). -/
def eps : ℚ := 1 / 1000000000

/-- One metric's static configuration (`MetricConfig` from `src/lib/metric-types.ts`
as used by `calculateScores`): display label, required access tier, path of the raw
value inside a company record, and polarity.  The tier is kept as a raw string so
that the fail-closed behaviour of the rank table on unrecognized tiers is visible. -/
structure MetricConfig where
  label : String
  tier : String
  nested_path : String
  higherIsBetter : Bool
deriving DecidableEq

/-- A company record (`Company` from `src/lib/types.ts`).

Modelled from the spec: `getNestedValue` and `isValidNumber` live in
`src/lib/utils.ts`, which is not part of the sources; per the spec a company
exposes "nested numeric fields reachable by dotted path", and the aggregator
treats a value that is not a finite number exactly like `null`.  We therefore
embed the composition `isValidNumber(getNestedValue(company, path)) ? v : null`
as a single function `values : String → Option ℚ`, where `none` stands for a
missing, null, non-numeric or non-finite value at that path. -/
structure Company where
  company_id : Int
  company_name : String
  values : String → Option ℚ

/-- One metric's contribution to one company's score (`ScoreComponent`). -/
structure ScoreComponent where
  metricLabel : String
  rawValue : Option ℚ
  normalizedValue : Option ℚ := none
  weight : ℚ
  weightedScore : ℚ
  isIncluded : Bool
  isAccessible : Bool
  error : Option String := none
deriving DecidableEq

/-- Output record per company (`CompanyScore`).  The breakdown record is embedded
as an association list in insertion order; `Object.entries(weights)` has pairwise
distinct keys, so lookup order is immaterial. -/
structure CompanyScore where
  companyId : Int
  companyName : String
  score : Option ℤ
  breakdown : List (String × ScoreComponent)
deriving DecidableEq

/-- The rank table `tierLevels = { free: 0, medium: 1, premium: 2 }`, as a partial
map on strings: indexing a JS record with an unlisted key yields `undefined`. -/
def tierLevels (t : String) : Option Int :=
  if t = "free" then some 0
  else if t = "medium" then some 1
  else if t = "premium" then some 2
  else none

/-- `tierLevels[currentUserTier] ?? -1` from the source. -/
def userTierLevel (t : String) : Int :=
  (tierLevels t).getD (-1)

/-- `tierLevels[metricConfig.tier] ?? 99` from the source. -/
def requiredTierLevel (t : String) : Int :=
  (tierLevels t).getD 99

/-- `component.isAccessible = userTierLevel >= requiredTierLevel` from the source. -/
def accessGranted (viewer required : String) : Bool :=
  userTierLevel viewer ≥ requiredTierLevel required

/-- Lines 90–104 of the source: width test against `1e-9`, degenerate-range rule,
clamp to `[0,1]`, then polarity inversion (after clamping). -/
def normalizeValue (rawValue mn mx : ℚ) (higherIsBetter : Bool) : ℚ :=
  let rangeWidth := mx - mn
  let n0 : ℚ :=
    if rangeWidth > eps then (rawValue - mn) / rangeWidth
    else if rawValue ≥ mn then 1/2
    else 0
  let n1 := max 0 (min 1 n0)
  if higherIsBetter then n1 else 1 - n1

/-- The body of the inner loop of `calculateScores` for one entry
`(db_column, weight)` of the weight map (weight already known positive):
builds the `ScoreComponent` recorded in the breakdown.  Each early `continue`
of the source corresponds to one non-included branch here; ranges are embedded
as `Option (Option ℚ × Option ℚ)` where the outer `none` is a missing entry of
`fullRanges` and an inner `none` is a non-finite bound. -/
def processMetric (metricConfigs : String → Option MetricConfig)
    (fullRanges : String → Option (Option ℚ × Option ℚ))
    (currentUserTier : String) (company : Company)
    (db_column : String) (weight : ℚ) : ScoreComponent :=
  match metricConfigs db_column with
  | none =>
      { metricLabel := db_column, rawValue := none, weight := weight,
        weightedScore := 0, isIncluded := false, isAccessible := false,
        error := some "Metric config not found" }
  | some metricConfig =>
      let label := if metricConfig.label = "" then db_column else metricConfig.label
      if accessGranted currentUserTier metricConfig.tier then
        match company.values metricConfig.nested_path with
        | none =>
            { metricLabel := label, rawValue := none, weight := weight,
              weightedScore := 0, isIncluded := false, isAccessible := true,
              error := some "Null value" }
        | some v =>
            match fullRanges db_column with
            | some (some mn, some mx) =>
                let normalized := normalizeValue v mn mx metricConfig.higherIsBetter
                { metricLabel := label, rawValue := some v,
                  normalizedValue := some normalized, weight := weight,
                  weightedScore := normalized * weight, isIncluded := true,
                  isAccessible := true }
            | some (some _, none) =>
                { metricLabel := label, rawValue := some v, weight := weight,
                  weightedScore := 0, isIncluded := false, isAccessible := true,
                  error := some "Invalid/Missing range" }
            | some (none, _) =>
                { metricLabel := label, rawValue := some v, weight := weight,
                  weightedScore := 0, isIncluded := false, isAccessible := true,
                  error := some "Invalid/Missing range" }
            | none =>
                { metricLabel := label, rawValue := some v, weight := weight,
                  weightedScore := 0, isIncluded := false, isAccessible := true,
                  error := some "Invalid/Missing range" }
      else
        { metricLabel := label, rawValue := none, weight := weight,
          weightedScore := 0, isIncluded := false, isAccessible := false,
          error := some ("Requires " ++ metricConfig.tier ++ " tier") }

/-- The breakdown built for one company: one entry per weight-map entry with
positive weight (`if (weight <= 0) continue`), in iteration order. -/
def scoreBreakdown (weights : List (String × ℚ))
    (fullRanges : String → Option (Option ℚ × Option ℚ))
    (metricConfigs : String → Option MetricConfig)
    (currentUserTier : String) (company : Company) : List (String × ScoreComponent) :=
  (weights.filter fun p => decide (0 < p.2)).map
    fun p => (p.1, processMetric metricConfigs fullRanges currentUserTier company p.1 p.2)

/-- Running sum `totalWeightedScore`: `component.weightedScore` is accumulated
exactly on the path where the component is marked included. -/
def totalWeightedScore (weights : List (String × ℚ))
    (fullRanges : String → Option (Option ℚ × Option ℚ))
    (metricConfigs : String → Option MetricConfig)
    (currentUserTier : String) (company : Company) : ℚ :=
  ((scoreBreakdown weights fullRanges metricConfigs currentUserTier company).map
    fun p => if p.2.isIncluded then p.2.weightedScore else 0).sum

/-- Running sum `totalEffectiveWeight`, accumulated on the included path only. -/
def totalEffectiveWeight (weights : List (String × ℚ))
    (fullRanges : String → Option (Option ℚ × Option ℚ))
    (metricConfigs : String → Option MetricConfig)
    (currentUserTier : String) (company : Company) : ℚ :=
  ((scoreBreakdown weights fullRanges metricConfigs currentUserTier company).map
    fun p => if p.2.isIncluded then p.2.weight else 0).sum

/-- `Math.round` on the (nonnegative) values reaching it: round half away from
zero coincides with `⌊x + 1/2⌋` for `x ≥ -1/2`, which covers every value the
scorer produces. -/
def jsRound (q : ℚ) : ℤ :=
  ⌊q + 1/2⌋

/-- One iteration of the outer company loop: the `CompanyScore` pushed for a
company (`finalScore` computation of lines 115–124). -/
def scoreCompany (weights : List (String × ℚ))
    (fullRanges : String → Option (Option ℚ × Option ℚ))
    (metricConfigs : String → Option MetricConfig)
    (currentUserTier : String) (company : Company) : CompanyScore :=
  let tws := totalWeightedScore weights fullRanges metricConfigs currentUserTier company
  let tew := totalEffectiveWeight weights fullRanges metricConfigs currentUserTier company
  { companyId := company.company_id
    companyName := company.company_name
    score := if 0 < tew then some (jsRound (tws / tew * 1000)) else none
    breakdown := scoreBreakdown weights fullRanges metricConfigs currentUserTier company }

/-- Sort key of the final ranking comparator `(b.score ?? -1) - (a.score ?? -1)`. -/
def scoreKey (c : CompanyScore) : ℤ :=
  c.score.getD (-1)

/-- Ordering in which `a` may precede `b` under the descending comparator. -/
def rankedBefore (a b : CompanyScore) : Prop :=
  scoreKey b ≤ scoreKey a

instance : DecidableRel rankedBefore := fun a b =>
  inferInstanceAs (Decidable (scoreKey b ≤ scoreKey a))

/-- The public entry point `calculateScores`: map the per-company scoring over the
input list, then sort descending by score with `null → -1` substitution.
`Array.prototype.sort` with this comparator yields some list that is sorted for
`rankedBefore` and is a permutation of the input; we embed it as a concrete
comparison sort with exactly those two properties. -/
def calculateScores (companies : List Company) (weights : List (String × ℚ))
    (fullRanges : String → Option (Option ℚ × Option ℚ))
    (metricConfigs : String → Option MetricConfig)
    (currentUserTier : String) : List CompanyScore :=
  (companies.map (scoreCompany weights fullRanges metricConfigs currentUserTier)).insertionSort
    rankedBefore

/-! ### Concrete fixtures (used to instantiate the theorems below) -/

/-- A sample company: value `50` at path `"p"`, value `70` at path `"q"`. -/
def exCompanyA : Company :=
  { company_id := 1, company_name := "Alpha",
    values := fun q => if q = "p" then some 50 else if q = "q" then some 70 else none }

/-- Like `exCompanyA`, but with a different value at the premium-gated path `"q"`. -/
def exCompanyB : Company :=
  { company_id := 1, company_name := "Alpha",
    values := fun q => if q = "p" then some 50 else if q = "q" then some 9999 else none }

/-- A sample metric catalog: `"m"` is free-tier at path `"p"`, `"n"` is
premium-tier at path `"q"` with inverted polarity. -/
def exMetricConfigs : String → Option MetricConfig := fun k =>
  if k = "m" then some ⟨"Metric M", "free", "p", true⟩
  else if k = "n" then some ⟨"Metric N", "premium", "q", false⟩
  else none

/-- Sample global ranges: `[0, 100]` for both metrics. -/
def exRanges : String → Option (Option ℚ × Option ℚ) := fun k =>
  if k = "m" then some (some 0, some 100)
  else if k = "n" then some (some 0, some 100)
  else none

/-- Sample ranges with a degenerate range `[10, 10]` for metric `"m"`. -/
def exRangesDeg : String → Option (Option ℚ × Option ℚ) := fun k =>
  if k = "m" then some (some 10, some 10) else none

/-- A single-entry weight map. -/
def exWeights1 : List (String × ℚ) := [("m", 100)]

/-- A two-entry weight map. -/
def exWeights2 : List (String × ℚ) := [("m", 100), ("n", 50)]

/-- `exWeights2` in the opposite iteration order. -/
def exWeights2rev : List (String × ℚ) := [("n", 50), ("m", 100)]

/-- The score record of `exCompanyA` under `exWeights1`, viewed from the free tier. -/
def exScoreA : CompanyScore :=
  scoreCompany exWeights1 exRanges exMetricConfigs "free" exCompanyA

/-! ### Helper lemmas about the normalizer -/

theorem normalizeValue_nonneg (v mn mx : ℚ) (b : Bool) : 0 ≤ normalizeValue v mn mx b := by
  unfold normalizeValue
  cases b with
  | true =>
      simp only [if_true]
      exact le_max_left 0 _
  | false =>
      simp only [Bool.false_eq_true, if_false, sub_nonneg]
      exact max_le (by norm_num) (min_le_left 1 _)

theorem normalizeValue_le_one (v mn mx : ℚ) (b : Bool) : normalizeValue v mn mx b ≤ 1 := by
  unfold normalizeValue
  cases b with
  | true =>
      simp only [if_true]
      exact max_le (by norm_num) (min_le_left 1 _)
  | false =>
      simp only [Bool.false_eq_true, if_false]
      have h : (0:ℚ) ≤ max 0 (min 1 (if mx - mn > eps then (v - mn) / (mx - mn)
          else if v ≥ mn then 1/2 else 0)) := le_max_left 0 _
      linarith

/-! ### Helper lemmas about `processMetric` -/

theorem processMetric_weight (mc : String → Option MetricConfig)
    (fr : String → Option (Option ℚ × Option ℚ)) (t : String) (c : Company)
    (k : String) (w : ℚ) : (processMetric mc fr t c k w).weight = w := by
  unfold processMetric
  cases hcfg : mc k with
  | none => rfl
  | some cfg =>
      by_cases hacc : accessGranted t cfg.tier
      · simp only [hacc, if_true]
        cases hv : c.values cfg.nested_path with
        | none => rfl
        | some v =>
            rcases hr : fr k with _ | ⟨_ | mn, _ | mx⟩ <;> rfl
      · simp only [hacc, Bool.false_eq_true, if_false]

theorem processMetric_isIncluded_iff (mc : String → Option MetricConfig)
    (fr : String → Option (Option ℚ × Option ℚ)) (t : String) (c : Company)
    (k : String) (w : ℚ) :
    (processMetric mc fr t c k w).isIncluded = true ↔
      ∃ cfg, mc k = some cfg ∧ accessGranted t cfg.tier = true ∧
        (∃ v, c.values cfg.nested_path = some v) ∧
        (∃ mn mx, fr k = some (some mn, some mx)) := by
  unfold processMetric
  cases hcfg : mc k with
  | none => simp
  | some cfg =>
      by_cases hacc : accessGranted t cfg.tier
      · simp only [hacc, if_true]
        cases hv : c.values cfg.nested_path with
        | none => simp [hv]
        | some v =>
            rcases hr : fr k with _ | ⟨_ | mn, _ | mx⟩ <;> simp [hr, hv, hacc]
      · simp only [hacc, Bool.false_eq_true, if_false]
        simp [hacc]

theorem processMetric_included_spec (mc : String → Option MetricConfig)
    (fr : String → Option (Option ℚ × Option ℚ)) (t : String) (c : Company)
    (k : String) (w : ℚ) (h : (processMetric mc fr t c k w).isIncluded = true) :
    ∃ n, (processMetric mc fr t c k w).normalizedValue = some n ∧
      0 ≤ n ∧ n ≤ 1 ∧ (processMetric mc fr t c k w).weightedScore = n * w := by
  revert h
  unfold processMetric
  cases hcfg : mc k with
  | none => simp
  | some cfg =>
      by_cases hacc : accessGranted t cfg.tier
      · simp only [hacc, if_true]
        cases hv : c.values cfg.nested_path with
        | none => simp
        | some v =>
            rcases hr : fr k with _ | ⟨_ | mn, _ | mx⟩ <;> simp
            exact ⟨normalizeValue_nonneg v mn mx cfg.higherIsBetter,
              normalizeValue_le_one v mn mx cfg.higherIsBetter⟩
      · simp [hacc]

theorem processMetric_excluded_spec (mc : String → Option MetricConfig)
    (fr : String → Option (Option ℚ × Option ℚ)) (t : String) (c : Company)
    (k : String) (w : ℚ) (h : (processMetric mc fr t c k w).isIncluded = false) :
    (processMetric mc fr t c k w).weightedScore = 0 ∧
      (processMetric mc fr t c k w).normalizedValue = none ∧
      (processMetric mc fr t c k w).error.isSome = true := by
  revert h
  unfold processMetric
  cases hcfg : mc k with
  | none => simp
  | some cfg =>
      by_cases hacc : accessGranted t cfg.tier
      · simp only [hacc, if_true]
        cases hv : c.values cfg.nested_path with
        | none => simp
        | some v =>
            rcases hr : fr k with _ | ⟨_ | mn, _ | mx⟩ <;> simp
      · simp [hacc]

theorem processMetric_denied (mc : String → Option MetricConfig)
    (fr : String → Option (Option ℚ × Option ℚ)) (t : String) (c : Company)
    (k : String) (w : ℚ) (h : (processMetric mc fr t c k w).isAccessible = false) :
    (processMetric mc fr t c k w).rawValue = none ∧
      (processMetric mc fr t c k w).normalizedValue = none ∧
      (processMetric mc fr t c k w).isIncluded = false := by
  revert h
  unfold processMetric
  cases hcfg : mc k with
  | none => simp
  | some cfg =>
      by_cases hacc : accessGranted t cfg.tier
      · simp only [hacc, if_true]
        cases hv : c.values cfg.nested_path with
        | none => simp
        | some v =>
            rcases hr : fr k with _ | ⟨_ | mn, _ | mx⟩ <;> simp
      · simp [hacc]

theorem processMetric_congr (mc : String → Option MetricConfig)
    (fr : String → Option (Option ℚ × Option ℚ)) (t : String) (c₁ c₂ : Company)
    (k : String) (w : ℚ)
    (h : ∀ cfg, mc k = some cfg → accessGranted t cfg.tier = true →
      c₁.values cfg.nested_path = c₂.values cfg.nested_path) :
    processMetric mc fr t c₁ k w = processMetric mc fr t c₂ k w := by
  unfold processMetric
  cases hcfg : mc k with
  | none => rfl
  | some cfg =>
      by_cases hacc : accessGranted t cfg.tier
      · simp only [hacc, if_true]
        rw [h cfg hcfg hacc]
      · simp [hacc]

/-! ### Helper lemmas about the breakdown and the running sums -/

theorem mem_scoreBreakdown (weights : List (String × ℚ))
    (fr : String → Option (Option ℚ × Option ℚ)) (mc : String → Option MetricConfig)
    (t : String) (c : Company) (k : String) (comp : ScoreComponent) :
    (k, comp) ∈ scoreBreakdown weights fr mc t c ↔
      ∃ wt, (k, wt) ∈ weights ∧ 0 < wt ∧ comp = processMetric mc fr t c k wt := by
  unfold scoreBreakdown
  constructor
  · intro hmem
    rcases List.mem_map.mp hmem with ⟨p, hp, heq⟩
    rcases p with ⟨a, b⟩
    rcases List.mem_filter.mp hp with ⟨hpw, hpos⟩
    have hk : a = k := congrArg Prod.fst heq
    have hc : processMetric mc fr t c a b = comp := congrArg Prod.snd heq
    subst hk
    exact ⟨b, hpw, of_decide_eq_true hpos, hc.symm⟩
  · rintro ⟨wt, hmem, hpos, rfl⟩
    exact List.mem_map.mpr ⟨(k, wt),
      List.mem_filter.mpr ⟨hmem, decide_eq_true hpos⟩, rfl⟩

theorem sum_pos_of_mem {l : List ℚ} (h0 : ∀ x ∈ l, 0 ≤ x) {x : ℚ} (hx : x ∈ l)
    (hpos : 0 < x) : 0 < l.sum := by
  induction l with
  | nil => cases hx
  | cons a tl ih =>
      rcases List.mem_cons.mp hx with rfl | hx'
      · have h1 : 0 ≤ tl.sum := List.sum_nonneg fun y hy => h0 y (List.mem_cons_of_mem _ hy)
        simp only [List.sum_cons]
        linarith
      · have ha : 0 ≤ a := h0 a (List.mem_cons_self a tl)
        have h2 := ih (fun y hy => h0 y (List.mem_cons_of_mem _ hy)) hx'
        simp only [List.sum_cons]
        linarith

theorem breakdown_entry_bounds (weights : List (String × ℚ))
    (fr : String → Option (Option ℚ × Option ℚ)) (mc : String → Option MetricConfig)
    (t : String) (c : Company) (p : String × ScoreComponent)
    (hp : p ∈ scoreBreakdown weights fr mc t c) :
    0 < p.2.weight ∧
      0 ≤ (if p.2.isIncluded then p.2.weightedScore else 0) ∧
      (if p.2.isIncluded then p.2.weightedScore else 0) ≤
        (if p.2.isIncluded then p.2.weight else 0) ∧
      0 ≤ (if p.2.isIncluded then p.2.weight else 0) := by
  rcases p with ⟨k, comp⟩
  rcases (mem_scoreBreakdown weights fr mc t c k comp).mp hp with ⟨wt, _, hpos, rfl⟩
  have hw := processMetric_weight mc fr t c k wt
  have h1 : 0 < (processMetric mc fr t c k wt).weight := by rw [hw]; exact hpos
  refine ⟨h1, ?_⟩
  by_cases hinc : (processMetric mc fr t c k wt).isIncluded = true
  · rcases processMetric_included_spec mc fr t c k wt hinc with ⟨n, _, hn0, hn1, hws⟩
    simp only [hinc, if_true, hws, hw]
    refine ⟨mul_nonneg hn0 (le_of_lt hpos), ?_, le_of_lt hpos⟩
    nlinarith
  · simp only [Bool.not_eq_true] at hinc
    simp [hinc]

theorem totalEffectiveWeight_nonneg (weights : List (String × ℚ))
    (fr : String → Option (Option ℚ × Option ℚ)) (mc : String → Option MetricConfig)
    (t : String) (c : Company) : 0 ≤ totalEffectiveWeight weights fr mc t c := by
  refine List.sum_nonneg ?_
  intro x hx
  rcases List.mem_map.mp hx with ⟨p, hp, rfl⟩
  exact (breakdown_entry_bounds weights fr mc t c p hp).2.2.2

theorem totalWeightedScore_nonneg (weights : List (String × ℚ))
    (fr : String → Option (Option ℚ × Option ℚ)) (mc : String → Option MetricConfig)
    (t : String) (c : Company) : 0 ≤ totalWeightedScore weights fr mc t c := by
  refine List.sum_nonneg ?_
  intro x hx
  rcases List.mem_map.mp hx with ⟨p, hp, rfl⟩
  exact (breakdown_entry_bounds weights fr mc t c p hp).2.1

theorem totalWeightedScore_le (weights : List (String × ℚ))
    (fr : String → Option (Option ℚ × Option ℚ)) (mc : String → Option MetricConfig)
    (t : String) (c : Company) :
    totalWeightedScore weights fr mc t c ≤ totalEffectiveWeight weights fr mc t c := by
  unfold totalWeightedScore totalEffectiveWeight
  exact List.sum_le_sum fun p hp => (breakdown_entry_bounds weights fr mc t c p hp).2.2.1

theorem totalEffectiveWeight_pos_iff (weights : List (String × ℚ))
    (fr : String → Option (Option ℚ × Option ℚ)) (mc : String → Option MetricConfig)
    (t : String) (c : Company) :
    0 < totalEffectiveWeight weights fr mc t c ↔
      ∃ p ∈ scoreBreakdown weights fr mc t c, p.2.isIncluded = true := by
  constructor
  · intro hpos
    by_contra hnone
    push_neg at hnone
    have hz : totalEffectiveWeight weights fr mc t c = 0 := by
      refine List.sum_eq_zero ?_
      intro x hx
      rcases List.mem_map.mp hx with ⟨p, hp, rfl⟩
      have : p.2.isIncluded = false := by
        have := hnone p hp
        simpa using this
      simp [this]
    rw [hz] at hpos
    exact lt_irrefl 0 hpos
  · rintro ⟨p, hp, hinc⟩
    refine sum_pos_of_mem ?_ (List.mem_map_of_mem _ hp) ?_
    · intro x hx
      rcases List.mem_map.mp hx with ⟨q, hq, rfl⟩
      exact (breakdown_entry_bounds weights fr mc t c q hq).2.2.2
    · simp only [hinc, if_true]
      exact (breakdown_entry_bounds weights fr mc t c p hp).1

/-! ### Helper lemmas about `jsRound` and the final score -/

theorem jsRound_bounds {q : ℚ} (h0 : 0 ≤ q) (h1 : q ≤ 1000) :
    0 ≤ jsRound q ∧ jsRound q ≤ 1000 := by
  constructor
  · exact Int.floor_nonneg.mpr (by linarith)
  · have h2 : (⌊q + 1/2⌋ : ℤ) ≤ ⌊(1000:ℚ) + 1/2⌋ := Int.floor_le_floor (by linarith)
    have h3 : (⌊(1000:ℚ) + 1/2⌋ : ℤ) = 1000 := by norm_num [Int.floor_eq_iff]
    unfold jsRound
    omega

theorem scoreCompany_breakdown (weights : List (String × ℚ))
    (fr : String → Option (Option ℚ × Option ℚ)) (mc : String → Option MetricConfig)
    (t : String) (c : Company) :
    (scoreCompany weights fr mc t c).breakdown = scoreBreakdown weights fr mc t c := rfl

theorem scoreCompany_score_none_iff (weights : List (String × ℚ))
    (fr : String → Option (Option ℚ × Option ℚ)) (mc : String → Option MetricConfig)
    (t : String) (c : Company) :
    (scoreCompany weights fr mc t c).score = none ↔
      ∀ p ∈ (scoreCompany weights fr mc t c).breakdown, p.2.isIncluded = false := by
  unfold scoreCompany
  simp only [scoreCompany_breakdown]
  by_cases hpos : 0 < totalEffectiveWeight weights fr mc t c
  · simp only [hpos, if_true]
    constructor
    · intro h; cases h
    · intro hall
      rcases (totalEffectiveWeight_pos_iff weights fr mc t c).mp hpos with ⟨p, hp, hinc⟩
      rw [hall p hp] at hinc
      cases hinc
  · simp only [hpos, if_false]
    constructor
    · intro _ p hp
      by_contra hinc
      simp only [Bool.not_eq_false] at hinc
      exact hpos ((totalEffectiveWeight_pos_iff weights fr mc t c).mpr ⟨p, hp, hinc⟩)
    · intro _; trivial

theorem scoreCompany_score_some (weights : List (String × ℚ))
    (fr : String → Option (Option ℚ × Option ℚ)) (mc : String → Option MetricConfig)
    (t : String) (c : Company) (s : ℤ)
    (h : (scoreCompany weights fr mc t c).score = some s) :
    s = jsRound (1000 * totalWeightedScore weights fr mc t c /
        totalEffectiveWeight weights fr mc t c) ∧ 0 ≤ s ∧ s ≤ 1000 := by
  unfold scoreCompany at h
  by_cases hpos : 0 < totalEffectiveWeight weights fr mc t c
  · simp only [hpos, if_true, Option.some.injEq] at h
    have hval : totalWeightedScore weights fr mc t c /
        totalEffectiveWeight weights fr mc t c * 1000 =
        1000 * totalWeightedScore weights fr mc t c /
        totalEffectiveWeight weights fr mc t c := by
      ring
    have hq0 : 0 ≤ totalWeightedScore weights fr mc t c /
        totalEffectiveWeight weights fr mc t c * 1000 := by
      have := div_nonneg (totalWeightedScore_nonneg weights fr mc t c) (le_of_lt hpos)
      linarith
    have hq1 : totalWeightedScore weights fr mc t c /
        totalEffectiveWeight weights fr mc t c * 1000 ≤ 1000 := by
      have hle : totalWeightedScore weights fr mc t c /
          totalEffectiveWeight weights fr mc t c ≤ 1 :=
        (div_le_one hpos).mpr (totalWeightedScore_le weights fr mc t c)
      linarith
    rcases jsRound_bounds hq0 hq1 with ⟨hb0, hb1⟩
    refine ⟨?_, ?_, ?_⟩
    · rw [← h, ← hval]
    · rw [← h]; exact hb0
    · rw [← h]; exact hb1
  · simp only [hpos, if_false] at h
    cases h

/-! ### Helper lemmas about the final ranking -/

instance : IsTotal CompanyScore rankedBefore :=
  ⟨fun a b => le_total (scoreKey b) (scoreKey a)⟩

instance : IsTrans CompanyScore rankedBefore :=
  ⟨fun _ _ _ hab hbc => le_trans hbc hab⟩

theorem calculateScores_perm (companies : List Company) (weights : List (String × ℚ))
    (fr : String → Option (Option ℚ × Option ℚ)) (mc : String → Option MetricConfig)
    (t : String) :
    (calculateScores companies weights fr mc t).Perm
      (companies.map (scoreCompany weights fr mc t)) :=
  List.perm_insertionSort rankedBefore _

theorem mem_calculateScores (companies : List Company) (weights : List (String × ℚ))
    (fr : String → Option (Option ℚ × Option ℚ)) (mc : String → Option MetricConfig)
    (t : String) (cs : CompanyScore) :
    cs ∈ calculateScores companies weights fr mc t ↔
      ∃ c ∈ companies, cs = scoreCompany weights fr mc t c := by
  rw [(calculateScores_perm companies weights fr mc t).mem_iff]
  constructor
  · intro h
    rcases List.mem_map.mp h with ⟨c, hc, rfl⟩
    exact ⟨c, hc, rfl⟩
  · rintro ⟨c, hc, rfl⟩
    exact List.mem_map_of_mem _ hc

theorem calculateScores_sorted (companies : List Company) (weights : List (String × ℚ))
    (fr : String → Option (Option ℚ × Option ℚ)) (mc : String → Option MetricConfig)
    (t : String) :
    (calculateScores companies weights fr mc t).Pairwise rankedBefore :=
  List.sorted_insertionSort rankedBefore _

/-! ### Association-list lookup of the breakdown record -/

/-- Access `scoreBreakdown[db_column]` of the embedded breakdown record. -/
def lookupComp (k : String) : List (String × ScoreComponent) → Option ScoreComponent
  | [] => none
  | p :: rest => if k = p.1 then some p.2 else lookupComp k rest

theorem lookupComp_eq_of_perm {l₁ l₂ : List (String × ScoreComponent)} (h : l₁.Perm l₂) :
    (l₁.map Prod.fst).Nodup → ∀ k, lookupComp k l₁ = lookupComp k l₂ := by
  induction h with
  | nil => intro _ _; rfl
  | cons x p ih =>
      intro nd k
      rw [List.map_cons] at nd
      have nd' := (List.nodup_cons.mp nd).2
      by_cases hk : k = x.1
      · simp [lookupComp, hk]
      · simp [lookupComp, hk, ih nd' k]
  | swap x y l =>
      intro nd k
      rw [List.map_cons, List.map_cons] at nd
      have hyx : y.1 ≠ x.1 := by
        have h1 := (List.nodup_cons.mp nd).1
        intro he
        exact h1 (by simp [he])
      have hxy : x.1 ≠ y.1 := fun he => hyx he.symm
      by_cases h1 : k = y.1 <;> by_cases h2 : k = x.1 <;>
        simp [lookupComp, h1, h2, hyx, hxy]
  | trans p₁ p₂ ih₁ ih₂ =>
      intro nd k
      have nd₂ := ((p₁.map Prod.fst).nodup_iff).mp nd
      exact (ih₁ nd k).trans (ih₂ nd₂ k)

theorem scoreBreakdown_perm {weights₁ weights₂ : List (String × ℚ)}
    (fr : String → Option (Option ℚ × Option ℚ)) (mc : String → Option MetricConfig)
    (t : String) (c : Company) (h : weights₁.Perm weights₂) :
    (scoreBreakdown weights₁ fr mc t c).Perm (scoreBreakdown weights₂ fr mc t c) :=
  (h.filter _).map _

theorem scoreBreakdown_keys_nodup (weights : List (String × ℚ))
    (fr : String → Option (Option ℚ × Option ℚ)) (mc : String → Option MetricConfig)
    (t : String) (c : Company) (nd : (weights.map Prod.fst).Nodup) :
    ((scoreBreakdown weights fr mc t c).map Prod.fst).Nodup := by
  have heq : (scoreBreakdown weights fr mc t c).map Prod.fst =
      (weights.filter fun p => decide (0 < p.2)).map Prod.fst := by
    simp [scoreBreakdown, List.map_map]
  rw [heq]
  exact ((List.filter_sublist weights).map Prod.fst).nodup nd

theorem scoreCompany_score_perm {weights₁ weights₂ : List (String × ℚ)}
    (fr : String → Option (Option ℚ × Option ℚ)) (mc : String → Option MetricConfig)
    (t : String) (c : Company) (h : weights₁.Perm weights₂) :
    (scoreCompany weights₁ fr mc t c).score = (scoreCompany weights₂ fr mc t c).score := by
  have h1 : totalWeightedScore weights₁ fr mc t c = totalWeightedScore weights₂ fr mc t c :=
    ((scoreBreakdown_perm fr mc t c h).map _).sum_eq
  have h2 : totalEffectiveWeight weights₁ fr mc t c = totalEffectiveWeight weights₂ fr mc t c :=
    ((scoreBreakdown_perm fr mc t c h).map _).sum_eq
  simp [scoreCompany, h1, h2]

/-! ### Congruence of scoring in the company values -/

theorem scoreCompany_values_congr (weights : List (String × ℚ))
    (fr : String → Option (Option ℚ × Option ℚ)) (mc : String → Option MetricConfig)
    (t : String) (c₁ c₂ : Company) (hid : c₁.company_id = c₂.company_id)
    (hname : c₁.company_name = c₂.company_name)
    (h : ∀ cfg k, mc k = some cfg → accessGranted t cfg.tier = true →
      c₁.values cfg.nested_path = c₂.values cfg.nested_path) :
    scoreCompany weights fr mc t c₁ = scoreCompany weights fr mc t c₂ := by
  have hb : scoreBreakdown weights fr mc t c₁ = scoreBreakdown weights fr mc t c₂ := by
    unfold scoreBreakdown
    refine List.map_congr_left ?_
    intro p _
    rw [processMetric_congr mc fr t c₁ c₂ p.1 p.2 fun cfg hcfg hacc => h cfg p.1 hcfg hacc]
  simp [scoreCompany, totalWeightedScore, totalEffectiveWeight, hb, hid, hname]

theorem calculateScores_values_congr (companies₁ companies₂ : List Company)
    (weights : List (String × ℚ)) (fr : String → Option (Option ℚ × Option ℚ))
    (mc : String → Option MetricConfig) (t : String)
    (hrel : List.Forall₂ (fun c₁ c₂ => c₁.company_id = c₂.company_id ∧
      c₁.company_name = c₂.company_name ∧
      ∀ cfg k, mc k = some cfg → accessGranted t cfg.tier = true →
        c₁.values cfg.nested_path = c₂.values cfg.nested_path) companies₁ companies₂) :
    calculateScores companies₁ weights fr mc t = calculateScores companies₂ weights fr mc t := by
  unfold calculateScores
  have hmap : companies₁.map (scoreCompany weights fr mc t) =
      companies₂.map (scoreCompany weights fr mc t) := by
    induction hrel with
    | nil => rfl
    | cons hpair _ ih =>
        rcases hpair with ⟨hid, hname, hvals⟩
        simp only [List.map_cons, ih, List.cons.injEq, and_true]
        exact scoreCompany_values_congr _ _ _ _ _ _ hid hname hvals
  rw [hmap]

/-! ### Claim theorems -/

/-- C1: for every company in the input list, the `CompanyScore` produced by
`calculateScores` has `score = null` iff zero metrics were included for that
company; otherwise `score = round(1000 × (sum of weighted contributions) /
(sum of included weights))`, an integer in `[0, 1000]`. -/
theorem calculateScores_score_spec (companies : List Company)
    (weights : List (String × ℚ)) (fr : String → Option (Option ℚ × Option ℚ))
    (mc : String → Option MetricConfig) (t : String) (cs : CompanyScore)
    (hcs : cs ∈ calculateScores companies weights fr mc t) :
    (cs.score = none ↔ ∀ p ∈ cs.breakdown, p.2.isIncluded = false) ∧
    (∀ s : ℤ, cs.score = some s →
      s = jsRound (1000 *
          ((cs.breakdown.map fun p => if p.2.isIncluded then p.2.weightedScore else 0).sum) /
          ((cs.breakdown.map fun p => if p.2.isIncluded then p.2.weight else 0).sum)) ∧
        0 ≤ s ∧ s ≤ 1000) := by
  rcases (mem_calculateScores companies weights fr mc t cs).mp hcs with ⟨c, _, rfl⟩
  refine ⟨scoreCompany_score_none_iff weights fr mc t c, ?_⟩
  intro s hs
  exact scoreCompany_score_some weights fr mc t c s hs

/-- C2: the list returned by `calculateScores` is sorted non-increasingly by
score, with every `null`-score entry ordered below every numeric-score entry. -/
theorem calculateScores_ranking_sorted (companies : List Company)
    (weights : List (String × ℚ)) (fr : String → Option (Option ℚ × Option ℚ))
    (mc : String → Option MetricConfig) (t : String) :
    (calculateScores companies weights fr mc t).Pairwise
      (fun a b => (∀ sa sb : ℤ, a.score = some sa → b.score = some sb → sb ≤ sa) ∧
        (a.score = none → b.score = none)) := by
  refine List.Pairwise.imp_of_mem ?_ (calculateScores_sorted companies weights fr mc t)
  intro a b _ hb hr
  unfold rankedBefore scoreKey at hr
  constructor
  · intro sa sb hsa hsb
    rw [hsa, hsb] at hr
    simpa using hr
  · intro hnone
    rcases hbs : b.score with _ | sb
    · rfl
    · exfalso
      rcases (mem_calculateScores companies weights fr mc t b).mp hb with ⟨cb, _, rfl⟩
      have hpos := (scoreCompany_score_some weights fr mc t cb sb hbs).2.1
      rw [hnone, hbs] at hr
      simp only [Option.getD_some, Option.getD_none] at hr
      omega

/-- C3: access is granted iff both tiers are recognized and
`rank(viewerTier) ≥ rank(requiredTier)` under `free(0) < medium(1) < premium(2)`;
an unrecognized tier on either side denies access (fails closed). -/
theorem accessGranted_iff_rank_le (viewer required : String) :
    accessGranted viewer required = true ↔
      ∃ lv lr : Int, tierLevels viewer = some lv ∧ tierLevels required = some lr ∧
        lr ≤ lv := by
  unfold accessGranted userTierLevel requiredTierLevel tierLevels
  split_ifs <;> simp

/-- C4: a breakdown component is included iff the metric definition was found,
tier access was granted, the raw value is a valid number, the range is present
with valid bounds, and its weight is positive; every recorded component has
positive weight, so a metric with weight `≤ 0` never appears as included. -/
theorem breakdown_isIncluded_iff (weights : List (String × ℚ))
    (fr : String → Option (Option ℚ × Option ℚ)) (mc : String → Option MetricConfig)
    (t : String) (c : Company) (k : String) (comp : ScoreComponent)
    (hmem : (k, comp) ∈ (scoreCompany weights fr mc t c).breakdown) :
    0 < comp.weight ∧
      (comp.isIncluded = true ↔
        ((∃ cfg, mc k = some cfg ∧ accessGranted t cfg.tier = true ∧
          (∃ v, c.values cfg.nested_path = some v) ∧
          (∃ mn mx, fr k = some (some mn, some mx))) ∧ 0 < comp.weight)) := by
  rw [scoreCompany_breakdown] at hmem
  rcases (mem_scoreBreakdown weights fr mc t c k comp).mp hmem with ⟨wt, _, hpos, rfl⟩
  have hweq := processMetric_weight mc fr t c k wt
  have hwpos : 0 < (processMetric mc fr t c k wt).weight := by rw [hweq]; exact hpos
  refine ⟨hwpos, ?_⟩
  rw [processMetric_isIncluded_iff]
  exact ⟨fun hg => ⟨hg, hwpos⟩, fun hg => hg.1⟩

/-- C5: when the supplied weights lie in `[0, 100]`, the breakdown of every
company contains an entry for every metric key with a non-zero weight,
whether or not that metric was ultimately included. -/
theorem breakdown_total_coverage (weights : List (String × ℚ))
    (fr : String → Option (Option ℚ × Option ℚ)) (mc : String → Option MetricConfig)
    (t : String) (c : Company) (hrange : ∀ p ∈ weights, 0 ≤ p.2 ∧ p.2 ≤ 100)
    (k : String) (wt : ℚ) (hmem : (k, wt) ∈ weights) (hne : wt ≠ 0) :
    ∃ comp, (k, comp) ∈ (scoreCompany weights fr mc t c).breakdown := by
  have hpos : 0 < wt := lt_of_le_of_ne (hrange (k, wt) hmem).1 (Ne.symm hne)
  refine ⟨processMetric mc fr t c k wt, ?_⟩
  rw [scoreCompany_breakdown]
  exact (mem_scoreBreakdown weights fr mc t c k _).mpr ⟨wt, hmem, hpos, rfl⟩

/-- C6: for every raw value and range, normalizing with `higherIsBetter = false`
yields `1` minus the value normalized with `higherIsBetter = true`, and both
lie in `[0, 1]` (inversion is applied after clamping). -/
theorem normalizeValue_polarity_inversion (v mn mx : ℚ) :
    normalizeValue v mn mx false = 1 - normalizeValue v mn mx true ∧
      ∀ b : Bool, 0 ≤ normalizeValue v mn mx b ∧ normalizeValue v mn mx b ≤ 1 := by
  refine ⟨?_, fun b => ⟨normalizeValue_nonneg v mn mx b, normalizeValue_le_one v mn mx b⟩⟩
  unfold normalizeValue
  simp

/-- C7: for every range of width at most `ε = 1e-9` (including `min = max` and
`min > max`), a higher-is-better metric normalizes to `0.5` when the raw value
is at least `min` and to `0` otherwise; such a metric still participates in the
weighted average (its component is marked included) rather than being disabled. -/
theorem normalizeValue_degenerate_range :
    (∀ v mn mx : ℚ, mx - mn ≤ eps →
      normalizeValue v mn mx true = if mn ≤ v then (1:ℚ)/2 else 0) ∧
    (∀ (mc : String → Option MetricConfig) (fr : String → Option (Option ℚ × Option ℚ))
      (t : String) (c : Company) (k : String) (w : ℚ) (cfg : MetricConfig) (v mn mx : ℚ),
      mc k = some cfg → accessGranted t cfg.tier = true →
      c.values cfg.nested_path = some v → fr k = some (some mn, some mx) →
      mx - mn ≤ eps → (processMetric mc fr t c k w).isIncluded = true) := by
  constructor
  · intro v mn mx hdeg
    have hnotgt : ¬(mx - mn > eps) := not_lt.mpr hdeg
    by_cases hv : mn ≤ v
    · have hge : v ≥ mn := hv
      simp only [normalizeValue, hnotgt, if_false, hge, if_true, hv]
      norm_num [min_def, max_def]
    · have hge : ¬(v ≥ mn) := hv
      simp only [normalizeValue, hnotgt, if_false, hge, hv]
      norm_num [min_def, max_def]
  · intro mc fr t c k w cfg v mn mx hcfg hacc hval hrange _
    simp [processMetric, hcfg, hacc, hval, hrange]

/-- C8: `calculateScores` is a total function that returns exactly one
`CompanyScore` per input company (a permutation of the per-company scoring map),
and every excluded breakdown component carries an exclusion reason; no data
anomaly fails the call. -/
theorem calculateScores_total_no_throw (companies : List Company)
    (weights : List (String × ℚ)) (fr : String → Option (Option ℚ × Option ℚ))
    (mc : String → Option MetricConfig) (t : String) :
    (calculateScores companies weights fr mc t).Perm
        (companies.map (scoreCompany weights fr mc t)) ∧
      (calculateScores companies weights fr mc t).length = companies.length ∧
      (∀ c ∈ companies, scoreCompany weights fr mc t c ∈
        calculateScores companies weights fr mc t) ∧
      (∀ cs ∈ calculateScores companies weights fr mc t, ∀ p ∈ cs.breakdown,
        p.2.isIncluded = false → p.2.error.isSome = true) := by
  refine ⟨calculateScores_perm companies weights fr mc t, ?_, ?_, ?_⟩
  · rw [(calculateScores_perm companies weights fr mc t).length_eq, List.length_map]
  · intro c hc
    exact (mem_calculateScores companies weights fr mc t _).mpr ⟨c, hc, rfl⟩
  · intro cs hcs p hp hfalse
    rcases (mem_calculateScores companies weights fr mc t cs).mp hcs with ⟨c, _, rfl⟩
    rw [scoreCompany_breakdown] at hp
    rcases p with ⟨k, comp⟩
    rcases (mem_scoreBreakdown weights fr mc t c k comp).mp hp with ⟨wt, _, _, rfl⟩
    exact (processMetric_excluded_spec mc fr t c k wt hfalse).2.2

/-- C9: the per-company result is independent of the iteration order over the
weight map: a permutation of the weight entries (with distinct keys) yields the
same score and the same breakdown record. -/
theorem scoreCompany_order_invariant (weights₁ weights₂ : List (String × ℚ))
    (fr : String → Option (Option ℚ × Option ℚ)) (mc : String → Option MetricConfig)
    (t : String) (c : Company) (hperm : weights₁.Perm weights₂)
    (hnd : (weights₁.map Prod.fst).Nodup) :
    (scoreCompany weights₁ fr mc t c).score = (scoreCompany weights₂ fr mc t c).score ∧
      ∀ k, lookupComp k (scoreCompany weights₁ fr mc t c).breakdown =
        lookupComp k (scoreCompany weights₂ fr mc t c).breakdown := by
  refine ⟨scoreCompany_score_perm fr mc t c hperm, ?_⟩
  intro k
  rw [scoreCompany_breakdown, scoreCompany_breakdown]
  exact lookupComp_eq_of_perm (scoreBreakdown_perm fr mc t c hperm)
    (scoreBreakdown_keys_nodup weights₁ fr mc t c hnd) k

/-- C10: values behind a denied tier gate never influence the output: if every
metric reading path `p` is tier-denied for the viewer, two company lists that
differ only at path `p` produce identical outputs (same scores, same ordering,
same breakdowns); moreover every inaccessible component records `rawValue = null`
and no normalized value, because the tier gate runs before value extraction. -/
theorem inaccessible_values_noninterference (weights : List (String × ℚ))
    (fr : String → Option (Option ℚ × Option ℚ)) (mc : String → Option MetricConfig)
    (t : String) (p : String) (companies₁ companies₂ : List Company)
    (hdeny : ∀ k cfg, mc k = some cfg → cfg.nested_path = p →
      accessGranted t cfg.tier = false)
    (hrel : List.Forall₂ (fun c₁ c₂ => c₁.company_id = c₂.company_id ∧
      c₁.company_name = c₂.company_name ∧
      ∀ q, q ≠ p → c₁.values q = c₂.values q) companies₁ companies₂) :
    calculateScores companies₁ weights fr mc t =
        calculateScores companies₂ weights fr mc t ∧
      ∀ (c : Company) (k : String) (w : ℚ),
        (processMetric mc fr t c k w).isAccessible = false →
          (processMetric mc fr t c k w).rawValue = none ∧
          (processMetric mc fr t c k w).normalizedValue = none := by
  constructor
  · apply calculateScores_values_congr
    refine hrel.imp ?_
    intro c₁ c₂ hc
    rcases hc with ⟨hid, hname, hvals⟩
    refine ⟨hid, hname, ?_⟩
    intro cfg k hcfg hacc
    by_cases hp : cfg.nested_path = p
    · exfalso
      have hd := hdeny k cfg hcfg hp
      rw [hd] at hacc
      cases hacc
    · exact hvals _ hp
  · intro c k w hna
    exact ⟨(processMetric_denied mc fr t c k w hna).1,
      (processMetric_denied mc fr t c k w hna).2.1⟩

/-! ### Witnesses instantiating the claim theorems on concrete inputs -/

/-- Witness for C1 on a concrete scored company. -/
theorem calculateScores_score_spec_witness :
    exScoreA ∈ calculateScores [exCompanyA] exWeights1 exRanges exMetricConfigs "free" ∧
      (exScoreA.score = none ↔ ∀ p ∈ exScoreA.breakdown, p.2.isIncluded = false) ∧
      (∀ s : ℤ, exScoreA.score = some s →
        s = jsRound (1000 *
            ((exScoreA.breakdown.map fun p =>
              if p.2.isIncluded then p.2.weightedScore else 0).sum) /
            ((exScoreA.breakdown.map fun p =>
              if p.2.isIncluded then p.2.weight else 0).sum)) ∧
          0 ≤ s ∧ s ≤ 1000) := by
  have hmem : exScoreA ∈ calculateScores [exCompanyA] exWeights1 exRanges exMetricConfigs
      "free" :=
    (mem_calculateScores [exCompanyA] exWeights1 exRanges exMetricConfigs "free"
      exScoreA).mpr ⟨exCompanyA, by simp, rfl⟩
  exact ⟨hmem, calculateScores_score_spec [exCompanyA] exWeights1 exRanges exMetricConfigs
    "free" exScoreA hmem⟩

/-- Witness for C4 on a concrete breakdown component. -/
theorem breakdown_isIncluded_iff_witness :
    ("m", processMetric exMetricConfigs exRanges "free" exCompanyA "m" 100) ∈
        exScoreA.breakdown ∧
      0 < (processMetric exMetricConfigs exRanges "free" exCompanyA "m" 100).weight ∧
      ((processMetric exMetricConfigs exRanges "free" exCompanyA "m" 100).isIncluded = true ↔
        ((∃ cfg, exMetricConfigs "m" = some cfg ∧
          accessGranted "free" cfg.tier = true ∧
          (∃ v, exCompanyA.values cfg.nested_path = some v) ∧
          (∃ mn mx, exRanges "m" = some (some mn, some mx))) ∧
          0 < (processMetric exMetricConfigs exRanges "free" exCompanyA "m" 100).weight)) := by
  have hmem : ("m", processMetric exMetricConfigs exRanges "free" exCompanyA "m" 100) ∈
      exScoreA.breakdown := by
    rw [exScoreA, scoreCompany_breakdown]
    exact (mem_scoreBreakdown exWeights1 exRanges exMetricConfigs "free" exCompanyA
      "m" _).mpr ⟨100, by simp [exWeights1], by norm_num, rfl⟩
  exact ⟨hmem, breakdown_isIncluded_iff exWeights1 exRanges exMetricConfigs "free"
    exCompanyA "m" _ hmem⟩

/-- Witness for C5 on a concrete weight map. -/
theorem breakdown_total_coverage_witness :
    (∀ p ∈ exWeights1, 0 ≤ p.2 ∧ p.2 ≤ 100) ∧ ("m", (100:ℚ)) ∈ exWeights1 ∧
      (100:ℚ) ≠ 0 ∧
      ∃ comp, ("m", comp) ∈ (scoreCompany exWeights1 exRanges exMetricConfigs "free"
        exCompanyA).breakdown := by
  have h1 : ∀ p ∈ exWeights1, 0 ≤ p.2 ∧ p.2 ≤ 100 := by
    intro p hp
    simp only [exWeights1, List.mem_singleton] at hp
    subst hp
    norm_num
  have h2 : ("m", (100:ℚ)) ∈ exWeights1 := by simp [exWeights1]
  have h3 : (100:ℚ) ≠ 0 := by norm_num
  exact ⟨h1, h2, h3, breakdown_total_coverage exWeights1 exRanges exMetricConfigs "free"
    exCompanyA h1 "m" 100 h2 h3⟩

/-- Witness for C7: degenerate range `[10, 10]`, raw value `15`, and the same
degenerate range participating in scoring for `exCompanyA`. -/
theorem normalizeValue_degenerate_range_witness :
    (10:ℚ) - 10 ≤ eps ∧
      normalizeValue 15 10 10 true = (if (10:ℚ) ≤ 15 then (1:ℚ)/2 else 0) ∧
      (processMetric exMetricConfigs exRangesDeg "free" exCompanyA "m" 100).isIncluded =
        true := by
  have hdeg : (10:ℚ) - 10 ≤ eps := by norm_num [eps]
  refine ⟨hdeg, normalizeValue_degenerate_range.1 15 10 10 hdeg, ?_⟩
  exact normalizeValue_degenerate_range.2 exMetricConfigs exRangesDeg "free" exCompanyA
    "m" 100 ⟨"Metric M", "free", "p", true⟩ 50 10 10 (by simp [exMetricConfigs])
    (by decide) (by simp [exCompanyA]) (by simp [exRangesDeg]) hdeg

/-- Witness for C8 on a concrete input list. -/
theorem calculateScores_total_no_throw_witness :
    (calculateScores [exCompanyA] exWeights1 exRanges exMetricConfigs "free").length = 1 ∧
      scoreCompany exWeights1 exRanges exMetricConfigs "free" exCompanyA ∈
        calculateScores [exCompanyA] exWeights1 exRanges exMetricConfigs "free" := by
  have h := calculateScores_total_no_throw [exCompanyA] exWeights1 exRanges exMetricConfigs
    "free"
  exact ⟨h.2.1, h.2.2.1 exCompanyA (by simp)⟩

/-- Witness for C9: the two iteration orders of a two-metric weight map. -/
theorem scoreCompany_order_invariant_witness :
    exWeights2.Perm exWeights2rev ∧ (exWeights2.map Prod.fst).Nodup ∧
      (scoreCompany exWeights2 exRanges exMetricConfigs "free" exCompanyA).score =
        (scoreCompany exWeights2rev exRanges exMetricConfigs "free" exCompanyA).score ∧
      ∀ k, lookupComp k
          (scoreCompany exWeights2 exRanges exMetricConfigs "free" exCompanyA).breakdown =
        lookupComp k
          (scoreCompany exWeights2rev exRanges exMetricConfigs "free" exCompanyA).breakdown := by
  have hperm : exWeights2.Perm exWeights2rev := by
    unfold exWeights2 exWeights2rev
    exact List.Perm.swap ("n", 50) ("m", 100) []
  have hnd : (exWeights2.map Prod.fst).Nodup := by simp [exWeights2]
  have h := scoreCompany_order_invariant exWeights2 exWeights2rev exRanges exMetricConfigs
    "free" exCompanyA hperm hnd
  exact ⟨hperm, hnd, h.1, h.2⟩

/-- Witness for C10: two companies differing only at the premium-gated path
`"q"`, viewed from the free tier. -/
theorem inaccessible_values_noninterference_witness :
    (∀ k cfg, exMetricConfigs k = some cfg → cfg.nested_path = "q" →
      accessGranted "free" cfg.tier = false) ∧
      calculateScores [exCompanyA] exWeights2 exRanges exMetricConfigs "free" =
        calculateScores [exCompanyB] exWeights2 exRanges exMetricConfigs "free" ∧
      (processMetric exMetricConfigs exRanges "free" exCompanyA "n" 50).rawValue = none ∧
      (processMetric exMetricConfigs exRanges "free" exCompanyA "n" 50).normalizedValue =
        none := by
  have hdeny : ∀ k cfg, exMetricConfigs k = some cfg → cfg.nested_path = "q" →
      accessGranted "free" cfg.tier = false := by
    intro k cfg hk hpath
    unfold exMetricConfigs at hk
    by_cases h1 : k = "m"
    · rw [if_pos h1] at hk
      cases hk
      exact absurd hpath (by decide)
    · rw [if_neg h1] at hk
      by_cases h2 : k = "n"
      · rw [if_pos h2] at hk
        cases hk
        decide
      · rw [if_neg h2] at hk
        cases hk
  have hrel : List.Forall₂ (fun c₁ c₂ => c₁.company_id = c₂.company_id ∧
      c₁.company_name = c₂.company_name ∧
      ∀ q, q ≠ "q" → c₁.values q = c₂.values q) [exCompanyA] [exCompanyB] := by
    refine List.Forall₂.cons ⟨rfl, rfl, ?_⟩ List.Forall₂.nil
    intro q hq
    simp [exCompanyA, exCompanyB, hq]
  have h := inaccessible_values_noninterference exWeights2 exRanges exMetricConfigs
    "free" "q" [exCompanyA] [exCompanyB] hdeny hrel
  have hna : (processMetric exMetricConfigs exRanges "free" exCompanyA "n" 50).isAccessible =
      false := by decide
  exact ⟨hdeny, h.1, h.2 exCompanyA "n" 50 hna⟩

end Scoring
